import Mathlib

/-
Verification of the PPO implementation in PPO/ppo.py against its
natural-language specification.  The definitions below are a shallow
embedding of the program: environment interaction is modelled by a
deterministic step oracle, the numeric code over rationals (or reals where
transcendental functions appear), and the rollout / update loops as
structurally recursive functions mirroring the Python control flow.
-/

namespace PPOSpec

/-! ## Experience buffer (PPOBuffer)

The buffer class `PPOBuffer` is imported from `utils.experience_replay`,
which is not among the repository sources; its behaviour is modelled from
the specification. -/

/-- Modelled from the spec: reverse discounted cumulative sum,
`out[t] = in[t] + discount * out[t+1]`, `out[last] = in[last]`.  Used by
`finish_path` (from `utils.experience_replay`, not among the sources) for
both returns and GAE advantages. -/
def discountCumsum (discount : ℚ) : List ℚ → List ℚ
  | [] => []
  | x :: xs =>
    let rest := discountCumsum discount xs
    (x + discount * rest.headD 0) :: rest

/-- Modelled from the spec: return-to-go of `finish_path`
(`utils.experience_replay`, not among the sources): the rewards are
extended with the bootstrap `last_value`, the reverse discounted cumulative
sum with discount `gamma` is taken, and the bootstrap entry is dropped from
the stored result. -/
def finishPathRet (gamma : ℚ) (rewards : List ℚ) (lastValue : ℚ) : List ℚ :=
  (discountCumsum gamma (rewards ++ [lastValue])).dropLast

/-- Modelled from the spec: TD residuals of `finish_path`
(`utils.experience_replay`, not among the sources):
`delta[t] = reward[t] + gamma * values[t+1] - values[t]` with the value
sequence extended by `last_value`. -/
def tdDeltas (gamma : ℚ) (rewards values : List ℚ) (lastValue : ℚ) : List ℚ :=
  let vs := values ++ [lastValue]
  List.zipWith (fun r vv => r + gamma * vv.2 - vv.1) rewards (vs.zip vs.tail)

/-- Modelled from the spec: GAE advantage of `finish_path`
(`utils.experience_replay`, not among the sources): reverse discounted
cumulative sum of the TD residuals with discount `gamma * lam`. -/
def finishPathAdv (gamma lam : ℚ) (rewards values : List ℚ) (lastValue : ℚ) : List ℚ :=
  discountCumsum (gamma * lam) (tdDeltas gamma rewards values lastValue)

/-- Modelled from the spec: the two fatal buffer errors. -/
inductive BufferError where
  | bufferFull
  | bufferNotFull
  deriving DecidableEq, Repr

/-- Modelled from the spec: the mutable state of `PPOBuffer`
(`utils.experience_replay`, not among the sources): five parallel arrays,
the derived advantage/return arrays, a write cursor `ptr` and an episode
cursor `path_start`. -/
structure BufState (S A : Type) where
  capacity : ℕ
  states : List S
  actions : List A
  rewards : List ℚ
  values : List ℚ
  logps : List ℚ
  advs : List ℚ
  rets : List ℚ
  ptr : ℕ
  pathStart : ℕ

/-- Modelled from the spec: `store` appends the transition at `ptr` and
increments `ptr`; it fails with `BufferFull` when `ptr == capacity`. -/
def BufState.store (b : BufState S A) (s : S) (a : A) (r v lp : ℚ) :
    Except BufferError (BufState S A) :=
  if b.ptr = b.capacity then .error .bufferFull
  else .ok { b with
    states := b.states ++ [s]
    actions := b.actions ++ [a]
    rewards := b.rewards ++ [r]
    values := b.values ++ [v]
    logps := b.logps ++ [lp]
    ptr := b.ptr + 1 }

/-- Modelled from the spec: `get` requires `ptr == capacity` (failing with
`BufferNotFull` otherwise), returns the five aligned arrays and resets both
cursors to 0.  The global advantage normalization uses a real square root
and is outside the cursor/error contract verified here. -/
def BufState.get (b : BufState S A) :
    Except BufferError ((List S × List A × List ℚ × List ℚ × List ℚ) × BufState S A) :=
  if b.ptr ≠ b.capacity then .error .bufferNotFull
  else .ok ((b.states, b.actions, b.advs, b.rets, b.logps),
    { b with ptr := 0, pathStart := 0 })

/-- Iterated `store` of a list of transitions, stopping at the first error. -/
def BufState.storeAll (b : BufState S A) :
    List (S × A × ℚ × ℚ × ℚ) → Except BufferError (BufState S A)
  | [] => .ok b
  | t :: ts =>
    match b.store t.1 t.2.1 t.2.2.1 t.2.2.2.1 t.2.2.2.2 with
    | .error e => .error e
    | .ok b' => b'.storeAll ts

/-! ## Rollout loop (PPO.play, src/PPO/ppo.py lines 187-219)

The environment collaborator is modelled as a deterministic step oracle and
the policy/value model as pure functions; the inner rollout loop is
embedded as structural recursion on the number of remaining steps of the
epoch (`fuel = steps_per_epoch - t`, so `fuel = 1` at the last step). -/

/-- Environment collaborator: `reset() -> state`,
`step(action) -> (next_state, reward, done)` (the `info` component is
unused by the program). -/
structure Env (S A : Type) where
  reset : S
  step : S → A → S × ℚ × Bool

/-- The model queried during rollout: the sampled action `pi` and the value
estimate `v` at a state (`sess.run([self.pi, self.v, ...])`). -/
structure Agent (S A : Type) where
  pi : S → A
  v : S → ℚ

/-- One iteration of the rollout loop, recording the `buf.store` arguments
(`sIn`, `act`, `storedReward`, `storedValue`), the result of the
`env.step` call of the same iteration (`nextState`, `stepReward`, `done`),
the episode length after the increment (`epLen`), whether this is the last
step of the epoch (`isLast`), whether `buf.finish_path` was called
(`terminal`) and with which bootstrap argument (`finish`). -/
structure Iter (S A : Type) where
  sIn : S
  act : A
  storedReward : ℚ
  storedValue : ℚ
  nextState : S
  stepReward : ℚ
  done : Bool
  epLen : ℕ
  isLast : Bool
  terminal : Bool
  finish : Option ℚ
  deriving DecidableEq

/-- The record of one iteration of the rollout loop body
(src/PPO/ppo.py lines 196-206): the policy and value are queried at `s`,
`buf.store(state, a, reward, v_t, logp_t)` receives the loop-carried
`reward` `r`, then `env.step` runs, `ep_len` is incremented, the terminal
test `done or (ep_len == max_ep_len)` is combined with the last-step test
(`fuel = 0` encodes `t == steps_per_epoch - 1`), and on terminal
`buf.finish_path(reward if done else v(next_state))` is recorded. -/
def stepIter (env : Env S A) (ag : Agent S A) (maxEpLen fuel : ℕ) (s : S) (r : ℚ)
    (n : ℕ) : Iter S A :=
  let p := env.step s (ag.pi s)
  let fin := p.2.2 || decide (n + 1 = maxEpLen) || decide (fuel = 0)
  ⟨s, ag.pi s, r, ag.v s, p.1, p.2.1, p.2.2, n + 1, decide (fuel = 0), fin,
    if fin = true then some (if p.2.2 = true then p.2.1 else ag.v p.1) else none⟩

/-- The inner loop of `PPO.play` for one epoch: each step records a
`stepIter`, and on terminal the loop variables are reset to
`env.reset(), 0, 0`.  Returns the iteration records and the final loop
variables `(state, reward, ep_len)`. -/
def playEpoch (env : Env S A) (ag : Agent S A) (maxEpLen : ℕ) :
    ℕ → S → ℚ → ℕ → List (Iter S A) × S × ℚ × ℕ
  | 0, s, r, n => ([], s, r, n)
  | fuel + 1, s, r, n =>
    let it := stepIter env ag maxEpLen fuel s r n
    let rest := if it.terminal = true
      then playEpoch env ag maxEpLen fuel env.reset 0 0
      else playEpoch env ag maxEpLen fuel it.nextState it.stepReward it.epLen
    (it :: rest.1, rest.2)

/-- The outer loop of `PPO.play`: `epochs` repetitions of the inner loop,
carrying the loop variables across epoch boundaries exactly as the source
does (they are plain Python locals of `play`). -/
def playEpochs (env : Env S A) (ag : Agent S A) (maxEpLen steps : ℕ) :
    ℕ → S → ℚ → ℕ → List (Iter S A)
  | 0, _, _, _ => []
  | e + 1, s, r, n =>
    let epoch := playEpoch env ag maxEpLen steps s r n
    epoch.1 ++ playEpochs env ag maxEpLen steps e epoch.2.1 epoch.2.2.1 epoch.2.2.2

/-- Entry point of `PPO.play`: the loop variables start at
`env.reset(), 0, False, 0, 0`. -/
def play (env : Env S A) (ag : Agent S A) (maxEpLen steps epochs : ℕ) :
    List (Iter S A) :=
  playEpochs env ag maxEpLen steps epochs env.reset 0 0

/-! ### Basic facts about the rollout embedding -/

@[simp] theorem stepIter_sIn (env : Env S A) (ag : Agent S A) (m fuel : ℕ) (s : S)
    (r : ℚ) (n : ℕ) : (stepIter env ag m fuel s r n).sIn = s := rfl

@[simp] theorem stepIter_act (env : Env S A) (ag : Agent S A) (m fuel : ℕ) (s : S)
    (r : ℚ) (n : ℕ) : (stepIter env ag m fuel s r n).act = ag.pi s := rfl

@[simp] theorem stepIter_storedReward (env : Env S A) (ag : Agent S A) (m fuel : ℕ)
    (s : S) (r : ℚ) (n : ℕ) : (stepIter env ag m fuel s r n).storedReward = r := rfl

@[simp] theorem stepIter_storedValue (env : Env S A) (ag : Agent S A) (m fuel : ℕ)
    (s : S) (r : ℚ) (n : ℕ) : (stepIter env ag m fuel s r n).storedValue = ag.v s := rfl

@[simp] theorem stepIter_nextState (env : Env S A) (ag : Agent S A) (m fuel : ℕ)
    (s : S) (r : ℚ) (n : ℕ) :
    (stepIter env ag m fuel s r n).nextState = (env.step s (ag.pi s)).1 := rfl

@[simp] theorem stepIter_stepReward (env : Env S A) (ag : Agent S A) (m fuel : ℕ)
    (s : S) (r : ℚ) (n : ℕ) :
    (stepIter env ag m fuel s r n).stepReward = (env.step s (ag.pi s)).2.1 := rfl

@[simp] theorem stepIter_done (env : Env S A) (ag : Agent S A) (m fuel : ℕ)
    (s : S) (r : ℚ) (n : ℕ) :
    (stepIter env ag m fuel s r n).done = (env.step s (ag.pi s)).2.2 := rfl

@[simp] theorem stepIter_epLen (env : Env S A) (ag : Agent S A) (m fuel : ℕ)
    (s : S) (r : ℚ) (n : ℕ) : (stepIter env ag m fuel s r n).epLen = n + 1 := rfl

@[simp] theorem stepIter_isLast (env : Env S A) (ag : Agent S A) (m fuel : ℕ)
    (s : S) (r : ℚ) (n : ℕ) :
    (stepIter env ag m fuel s r n).isLast = decide (fuel = 0) := rfl

theorem stepIter_terminal (env : Env S A) (ag : Agent S A) (m fuel : ℕ)
    (s : S) (r : ℚ) (n : ℕ) :
    (stepIter env ag m fuel s r n).terminal =
      ((env.step s (ag.pi s)).2.2 || decide (n + 1 = m) || decide (fuel = 0)) := rfl

theorem stepIter_finish (env : Env S A) (ag : Agent S A) (m fuel : ℕ)
    (s : S) (r : ℚ) (n : ℕ) :
    (stepIter env ag m fuel s r n).finish =
      (if (stepIter env ag m fuel s r n).terminal = true
        then some (if (env.step s (ag.pi s)).2.2 = true then (env.step s (ag.pi s)).2.1
          else ag.v (env.step s (ag.pi s)).1)
        else none) := rfl

theorem stepIter_terminal_of_last (env : Env S A) (ag : Agent S A) (m : ℕ)
    (s : S) (r : ℚ) (n : ℕ) : (stepIter env ag m 0 s r n).terminal = true := by
  simp [stepIter_terminal]

theorem playEpoch_succ (env : Env S A) (ag : Agent S A) (m fuel : ℕ) (s : S) (r : ℚ)
    (n : ℕ) :
    playEpoch env ag m (fuel + 1) s r n =
      (stepIter env ag m fuel s r n ::
        (if (stepIter env ag m fuel s r n).terminal = true
          then playEpoch env ag m fuel env.reset 0 0
          else playEpoch env ag m fuel (stepIter env ag m fuel s r n).nextState
            (stepIter env ag m fuel s r n).stepReward
            (stepIter env ag m fuel s r n).epLen).1,
        (if (stepIter env ag m fuel s r n).terminal = true
          then playEpoch env ag m fuel env.reset 0 0
          else playEpoch env ag m fuel (stepIter env ag m fuel s r n).nextState
            (stepIter env ag m fuel s r n).stepReward
            (stepIter env ag m fuel s r n).epLen).2) := rfl

theorem playEpoch_ne_nil (env : Env S A) (ag : Agent S A) (m fuel : ℕ) (s : S)
    (r : ℚ) (n : ℕ) (h : fuel ≠ 0) : (playEpoch env ag m fuel s r n).1 ≠ [] := by
  cases fuel with
  | zero => exact absurd rfl h
  | succ fuel => rw [playEpoch_succ]; simp

theorem playEpoch_head (env : Env S A) (ag : Agent S A) (m fuel : ℕ) (s : S)
    (r : ℚ) (n : ℕ) {it : Iter S A}
    (h : (playEpoch env ag m fuel s r n).1.head? = some it) :
    it = stepIter env ag m (fuel - 1) s r n := by
  cases fuel with
  | zero => simp [playEpoch] at h
  | succ fuel =>
    rw [playEpoch_succ] at h
    simp only [List.head?_cons, Option.some.injEq] at h
    exact h.symm

theorem playEpoch_final (env : Env S A) (ag : Agent S A) (m : ℕ) (fuel : ℕ) :
    ∀ (s : S) (r : ℚ) (n : ℕ), fuel ≠ 0 →
      (playEpoch env ag m fuel s r n).2 = (env.reset, 0, 0) := by
  induction fuel with
  | zero => intro s r n h; exact absurd rfl h
  | succ fuel ih =>
    intro s r n _
    rw [playEpoch_succ]
    rcases Nat.eq_zero_or_pos fuel with hf | hf
    · subst hf
      rw [if_pos (stepIter_terminal_of_last env ag m s r n)]
      simp [playEpoch]
    · have hf' : fuel ≠ 0 := Nat.pos_iff_ne_zero.mp hf
      by_cases hterm : (stepIter env ag m fuel s r n).terminal = true
      · rw [if_pos hterm]; exact ih _ _ _ hf'
      · rw [if_neg hterm]; exact ih _ _ _ hf'

theorem playEpoch_getLast_terminal (env : Env S A) (ag : Agent S A) (m : ℕ)
    (fuel : ℕ) :
    ∀ (s : S) (r : ℚ) (n : ℕ) {it : Iter S A},
      (playEpoch env ag m fuel s r n).1.getLast? = some it → it.terminal = true := by
  induction fuel with
  | zero => intro s r n it h; simp [playEpoch] at h
  | succ fuel ih =>
    intro s r n it h
    rw [playEpoch_succ] at h
    rcases Nat.eq_zero_or_pos fuel with hf | hf
    · subst hf
      rw [if_pos (stepIter_terminal_of_last env ag m s r n)] at h
      simp only [playEpoch, List.getLast?_singleton, Option.some.injEq] at h
      rw [← h]
      exact stepIter_terminal_of_last env ag m s r n
    · have hf' : fuel ≠ 0 := Nat.pos_iff_ne_zero.mp hf
      by_cases hterm : (stepIter env ag m fuel s r n).terminal = true
      · rw [if_pos hterm] at h
        rcases hl : (playEpoch env ag m fuel env.reset 0 0).1 with _ | ⟨x, xs⟩
        · exact absurd hl (playEpoch_ne_nil env ag m fuel _ _ _ hf')
        · rw [hl, List.getLast?_cons_cons] at h
          exact ih _ _ _ (hl.symm ▸ h)
      · rw [if_neg hterm] at h
        rcases hl : (playEpoch env ag m fuel (stepIter env ag m fuel s r n).nextState
            (stepIter env ag m fuel s r n).stepReward
            (stepIter env ag m fuel s r n).epLen).1 with _ | ⟨x, xs⟩
        · exact absurd hl (playEpoch_ne_nil env ag m fuel _ _ _ hf')
        · rw [hl, List.getLast?_cons_cons] at h
          exact ih _ _ _ (hl.symm ▸ h)

theorem playEpochs_succ (env : Env S A) (ag : Agent S A) (m steps e : ℕ) (s : S)
    (r : ℚ) (n : ℕ) :
    playEpochs env ag m steps (e + 1) s r n =
      (playEpoch env ag m steps s r n).1 ++
        playEpochs env ag m steps e (playEpoch env ag m steps s r n).2.1
          (playEpoch env ag m steps s r n).2.2.1
          (playEpoch env ag m steps s r n).2.2.2 := rfl

/-- Relation between consecutively stored transitions: the reward stored by
the later one is the previous iteration's environment-step reward, or `0`
when the previous iteration ended an episode (reset). -/
def storeRel (a b : Iter S A) : Prop :=
  b.storedReward = if a.terminal = true then 0 else a.stepReward

theorem playEpoch_mem (env : Env S A) (ag : Agent S A) (m fuel : ℕ) :
    ∀ (s : S) (r : ℚ) (n : ℕ) {it : Iter S A},
      it ∈ (playEpoch env ag m fuel s r n).1 →
      ∃ (f' : ℕ) (s' : S) (r' : ℚ) (n' : ℕ), it = stepIter env ag m f' s' r' n' := by
  induction fuel with
  | zero => intro s r n it h; simp [playEpoch] at h
  | succ fuel ih =>
    intro s r n it h
    rw [playEpoch_succ] at h
    rcases List.mem_cons.mp h with h | h
    · exact ⟨fuel, s, r, n, h⟩
    · by_cases hterm : (stepIter env ag m fuel s r n).terminal = true
      · rw [if_pos hterm] at h
        exact ih _ _ _ h
      · rw [if_neg hterm] at h
        exact ih _ _ _ h

theorem playEpochs_mem (env : Env S A) (ag : Agent S A) (m steps : ℕ) :
    ∀ (e : ℕ) (s : S) (r : ℚ) (n : ℕ) {it : Iter S A},
      it ∈ playEpochs env ag m steps e s r n →
      ∃ (f' : ℕ) (s' : S) (r' : ℚ) (n' : ℕ), it = stepIter env ag m f' s' r' n' := by
  intro e
  induction e with
  | zero => intro s r n it h; simp [playEpochs] at h
  | succ e ih =>
    intro s r n it h
    rw [playEpochs_succ] at h
    rcases List.mem_append.mp h with h | h
    · exact playEpoch_mem env ag m steps _ _ _ h
    · exact ih _ _ _ h

theorem playEpoch_chain (env : Env S A) (ag : Agent S A) (m fuel : ℕ) :
    ∀ (s : S) (r : ℚ) (n : ℕ),
      List.Chain' storeRel (playEpoch env ag m fuel s r n).1 := by
  induction fuel with
  | zero => intro s r n; simp [playEpoch]
  | succ fuel ih =>
    intro s r n
    rw [playEpoch_succ]
    by_cases hterm : (stepIter env ag m fuel s r n).terminal = true
    · rw [if_pos hterm]
      refine List.chain'_cons'.mpr ⟨?_, ih _ _ _⟩
      intro y hy
      have hy' := playEpoch_head env ag m fuel _ _ _ (Option.mem_def.mp hy)
      rw [storeRel, if_pos hterm, hy', stepIter_storedReward]
    · rw [if_neg hterm]
      refine List.chain'_cons'.mpr ⟨?_, ih _ _ _⟩
      intro y hy
      have hy' := playEpoch_head env ag m fuel _ _ _ (Option.mem_def.mp hy)
      rw [storeRel, if_neg hterm, hy', stepIter_storedReward]

theorem playEpochs_head_stored (env : Env S A) (ag : Agent S A) (m steps : ℕ) :
    ∀ (e : ℕ) (s : S) (r : ℚ) (n : ℕ) {it : Iter S A},
      (playEpochs env ag m steps e s r n).head? = some it → it.storedReward = r := by
  intro e
  induction e with
  | zero => intro s r n it h; simp [playEpochs] at h
  | succ e ih =>
    intro s r n it h
    rw [playEpochs_succ] at h
    rcases hl : (playEpoch env ag m steps s r n).1 with _ | ⟨x, xs⟩
    · rw [hl, List.nil_append] at h
      have hsteps : steps = 0 := by
        by_contra hs
        exact playEpoch_ne_nil env ag m steps s r n hs hl
      subst hsteps
      exact ih _ _ _ h
    · rw [hl, List.cons_append, List.head?_cons, Option.some.injEq] at h
      have hx := playEpoch_head env ag m steps s r n
        (show (playEpoch env ag m steps s r n).1.head? = some x by rw [hl]; rfl)
      rw [← h, hx, stepIter_storedReward]

theorem playEpochs_chain (env : Env S A) (ag : Agent S A) (m steps : ℕ) :
    ∀ (e : ℕ) (s : S) (r : ℚ) (n : ℕ),
      List.Chain' storeRel (playEpochs env ag m steps e s r n) := by
  intro e
  induction e with
  | zero => intro s r n; simp [playEpochs]
  | succ e ih =>
    intro s r n
    rw [playEpochs_succ]
    refine List.chain'_append.mpr ⟨playEpoch_chain env ag m steps _ _ _, ih _ _ _, ?_⟩
    intro x hx y hy
    have hterm := playEpoch_getLast_terminal env ag m steps s r n (Option.mem_def.mp hx)
    have hne : (playEpoch env ag m steps s r n).1 ≠ [] := by
      intro hnil
      rw [hnil] at hx
      simp at hx
    have hsteps : steps ≠ 0 := by
      intro h0
      subst h0
      exact hne rfl
    have hfin := playEpoch_final env ag m steps s r n hsteps
    have hstored := playEpochs_head_stored env ag m steps e _ _ _ (Option.mem_def.mp hy)
    rw [storeRel, if_pos hterm, hstored, hfin]

/-! ### Concrete test environments and agents -/

/-- Test environment: every step returns reward 5 and reports done. -/
def envAlwaysDone : Env ℕ ℕ := ⟨0, fun s _ => (s + 1, 5, true)⟩

/-- Test environment: every step returns reward 7 and never reports done. -/
def envNeverDone : Env ℕ ℕ := ⟨0, fun s _ => (s + 1, 7, false)⟩

/-- Test agent: constant action 0, constant value estimate 9. -/
def agConst : Agent ℕ ℕ := ⟨fun _ => 0, fun _ => 9⟩

/-- The first iteration record of `play envAlwaysDone agConst 100 3 1`. -/
def itDone : Iter ℕ ℕ := ⟨0, 0, 0, 9, 1, 5, true, 1, false, true, some 5⟩

/-- The head iteration record of `playEpoch envNeverDone agConst 100 2 5 3 0`. -/
def itMid : Iter ℕ ℕ := ⟨5, 0, 3, 9, 6, 7, false, 1, false, false, none⟩

/-- The first iteration record of `play envNeverDone agConst 100 2 1`. -/
def itStart : Iter ℕ ℕ := ⟨0, 0, 0, 9, 1, 7, false, 1, false, false, none⟩

/-! ### Claims C1, C2, C9 -/

/-- C1, counterexample: the claim that `finish_path` receives bootstrap
value `0` on natural termination is false on the code.  In a run whose
first environment step returns reward 5 with `done = true`, the first
iteration is terminal with `done = true`, yet `finish_path` receives `5`
(the step's reward, per `last_val = reward if done else ...` at ppo.py
line 205), not `0`. -/
theorem finish_path_bootstrap_zero_cex :
    ((play envAlwaysDone agConst 100 3 1).head?.map fun it =>
      (it.done, it.terminal, it.finish)) = some (true, true, some 5) ∧
      some (5 : ℚ) ≠ some (0 : ℚ) := by
  decide

/-- C1 (amended): in the rollout phase, whenever the terminal condition
(done, or episode length equal to `max_ep_len`, or last step of the epoch)
holds, `finish_path` is called with bootstrap value equal to the terminal
step's reward if the episode ended naturally (`done` true), and otherwise
with the model's current value estimate at `next_state`; every stored
action is the policy's action at the stored state and the recorded step
data come from stepping the environment there. -/
theorem finish_path_bootstrap (env : Env S A) (ag : Agent S A)
    (m steps epochs : ℕ) (it : Iter S A) (hit : it ∈ play env ag m steps epochs) :
    it.act = ag.pi it.sIn ∧
    (it.nextState, it.stepReward, it.done) = env.step it.sIn it.act ∧
    it.terminal = (it.done || decide (it.epLen = m) || it.isLast) ∧
    it.finish = (if it.terminal = true
      then some (if it.done = true then it.stepReward else ag.v it.nextState)
      else none) := by
  obtain ⟨f', s', r', n', rfl⟩ := playEpochs_mem env ag m steps epochs _ _ _ hit
  exact ⟨rfl, rfl, rfl, rfl⟩

/-- C1, witness: the amended theorem applied to the first iteration of a
concrete run. -/
theorem finish_path_bootstrap_witness :
    itDone.act = agConst.pi itDone.sIn ∧
    (itDone.nextState, itDone.stepReward, itDone.done) =
      envAlwaysDone.step itDone.sIn itDone.act ∧
    itDone.terminal = (itDone.done || decide (itDone.epLen = 100) || itDone.isLast) ∧
    itDone.finish = (if itDone.terminal = true
      then some (if itDone.done = true then itDone.stepReward
        else agConst.v itDone.nextState)
      else none) :=
  finish_path_bootstrap envAlwaysDone agConst 100 3 1 itDone (by decide)

/-- C2, counterexample: the claim that each stored transition carries the
reward obtained by stepping the environment with that action from that
state is false on the code.  In a run whose every step returns reward 7,
the first stored transition carries reward 0 (the value assigned at
reset), while stepping the environment from the stored state with the
stored action returns 7: the store at ppo.py line 198 precedes the
`env.step` call at line 199 and receives the previous iteration's
reward. -/
theorem store_reward_alignment_cex :
    ((play envNeverDone agConst 100 3 1).head?.map fun it =>
      (it.storedReward, (envNeverDone.step it.sIn it.act).2.1)) = some (0, 7) ∧
      (0 : ℚ) ≠ 7 := by
  decide

/-- C2 (amended): the store of a transition precedes the environment step
of the same iteration: the reward stored at the first iteration is the
loop-carried reward `r` from before that iteration's step, the environment
step's reward of each iteration is obtained by stepping from the stored
state with the stored action, and consecutively stored rewards satisfy
`storeRel`: each stored reward equals the previous iteration's step reward
(or 0 right after a reset). -/
theorem store_reward_alignment (env : Env S A) (ag : Agent S A) (m fuel : ℕ)
    (s : S) (r : ℚ) (n : ℕ) (it : Iter S A)
    (hhead : (playEpoch env ag m fuel s r n).1.head? = some it) :
    it.storedReward = r ∧
    it.stepReward = (env.step it.sIn it.act).2.1 ∧
    List.Chain' storeRel (playEpoch env ag m fuel s r n).1 := by
  have h := playEpoch_head env ag m fuel s r n hhead
  subst h
  exact ⟨rfl, rfl, playEpoch_chain env ag m fuel s r n⟩

/-- C2, witness: the amended theorem applied to a concrete epoch whose
loop-carried reward starts at 3. -/
theorem store_reward_alignment_witness :
    itMid.storedReward = 3 ∧
    itMid.stepReward = (envNeverDone.step itMid.sIn itMid.act).2.1 ∧
    List.Chain' storeRel (playEpoch envNeverDone agConst 100 2 5 3 0).1 :=
  store_reward_alignment envNeverDone agConst 100 2 5 3 0 itMid (by decide)

/-- C9: the reward stored with the first transition of the whole run is
exactly 0 (the value the loop assigns at reset), and after every iteration
that called `finish_path` (and hence reset the environment) the next
stored transition again carries reward 0 — an invariant maintained across
all epochs and episode boundaries. -/
theorem reset_zero_reward_invariant (env : Env S A) (ag : Agent S A)
    (m steps epochs : ℕ) (it : Iter S A)
    (hhead : (play env ag m steps epochs).head? = some it) :
    it.storedReward = 0 ∧
    List.Chain' (fun a b => a.terminal = true → b.storedReward = 0)
      (play env ag m steps epochs) := by
  refine ⟨playEpochs_head_stored env ag m steps epochs _ _ _ hhead, ?_⟩
  refine List.Chain'.imp ?_ (playEpochs_chain env ag m steps epochs _ _ _)
  intro a b hr
  intro ht
  rw [storeRel] at hr
  rw [hr, if_pos ht]

/-- C9, witness: the invariant applied to the first iteration of a
concrete run. -/
theorem reset_zero_reward_invariant_witness :
    itStart.storedReward = 0 ∧
    List.Chain' (fun a b => a.terminal = true → b.storedReward = 0)
      (play envNeverDone agConst 100 2 1) :=
  reset_zero_reward_invariant envNeverDone agConst 100 2 1 itStart (by decide)

/-! ### Claim C3: finish_path returns and advantages -/

/-- C3: `finish_path` computes the per-episode return-to-go as the reverse
discounted cumulative sum of the rewards with discount `gamma` (bootstrap
appended then dropped) and the advantage as the reverse discounted
cumulative sum of the TD residuals with discount `gamma * lam`; for the
1-episode 3-step sequence with `gamma = 0.9`, rewards `[1,1,1]`, values
`[0,0,0]`, `last_value = 0`, the returns are `[2.71, 1.9, 1.0]` and with
`lam = 1.0` the advantages equal the returns minus the values. -/
theorem finish_path_gae_example :
    (∀ (g x : ℚ) (xs : List ℚ),
      discountCumsum g (x :: xs) = (x + g * (discountCumsum g xs).headD 0) ::
        discountCumsum g xs) ∧
    finishPathRet (9/10) [1, 1, 1] 0 = [271/100, 19/10, 1] ∧
    finishPathAdv (9/10) 1 [1, 1, 1] [0, 0, 0] 0 = [271/100, 19/10, 1] ∧
    finishPathAdv (9/10) 1 [1, 1, 1] [0, 0, 0] 0 =
      List.zipWith (fun r v => r - v) (finishPathRet (9/10) [1, 1, 1] 0)
        [0, 0, 0] := by
  refine ⟨fun g x xs => rfl, ?_, ?_, ?_⟩ <;>
    norm_num [finishPathRet, finishPathAdv, discountCumsum, tdDeltas]

/-! ### Claim C4: the clipped surrogate objective -/

/-- The per-sample PPO surrogate term as the code computes it
(ppo.py lines 176-178): `ratio * adv` capped against
`where(adv > 0, (1 + clip_ratio) * adv, (1 - clip_ratio) * adv)`. -/
def surrogateCode (clipRatio adv ratio : ℚ) : ℚ :=
  min (ratio * adv) (if adv > 0 then (1 + clipRatio) * adv else (1 - clipRatio) * adv)

/-- Clipping a value to an interval. -/
def clip (x lo hi : ℚ) : ℚ := max lo (min x hi)

/-- The per-sample PPO surrogate term as the spec's formula states it:
`min(ratio * adv, clip(ratio, 1 - clip_ratio, 1 + clip_ratio) * adv)`. -/
def surrogateSpec (clipRatio adv ratio : ℚ) : ℚ :=
  min (ratio * adv) (clip ratio (1 - clipRatio) (1 + clipRatio) * adv)

/-- C4: for every advantage, ratio and `clip_ratio ∈ (0,1)`, the code's
branch formula agrees with the spec's clip formula; for positive advantage
and ratio `1 + clip_ratio + 0.1` the clipped branch `(1+clip_ratio)*adv`
is taken, and symmetrically for negative advantage and ratio below
`1 - clip_ratio`. -/
theorem clipped_surrogate_equiv (c adv ratio : ℚ) (h0 : 0 < c) (h1 : c < 1) :
    surrogateCode c adv ratio = surrogateSpec c adv ratio ∧
    (0 < adv → ratio = 1 + c + 1/10 → surrogateCode c adv ratio = (1 + c) * adv) ∧
    (adv < 0 → ratio < 1 - c → surrogateCode c adv ratio = (1 - c) * adv) := by
  refine ⟨?_, ?_, ?_⟩
  · rcases lt_trichotomy adv 0 with ha | ha | ha
    · rw [surrogateCode, surrogateSpec, if_neg (by linarith)]
      rcases lt_or_le ratio (1 - c) with hr | hr
      · have hclip : clip ratio (1 - c) (1 + c) = 1 - c := by
          rw [clip, min_eq_left (by linarith : ratio ≤ 1 + c)]
          exact max_eq_left (by linarith)
        rw [hclip]
      · have hclip : clip ratio (1 - c) (1 + c) ≤ ratio := by
          rw [clip]
          exact max_le hr (min_le_left _ _)
        have h2 : ratio * adv ≤ (1 - c) * adv := by nlinarith
        have h3 : ratio * adv ≤ clip ratio (1 - c) (1 + c) * adv := by nlinarith
        rw [min_eq_left h2, min_eq_left h3]
    · subst ha
      simp [surrogateCode, surrogateSpec]
    · rw [surrogateCode, surrogateSpec, if_pos ha]
      rcases le_or_lt ratio (1 + c) with hr | hr
      · have hclip : ratio ≤ clip ratio (1 - c) (1 + c) := by
          rw [clip, min_eq_left hr]
          exact le_max_right _ _
        have h2 : ratio * adv ≤ (1 + c) * adv := by nlinarith
        have h3 : ratio * adv ≤ clip ratio (1 - c) (1 + c) * adv := by nlinarith
        rw [min_eq_left h2, min_eq_left h3]
      · have hclip : clip ratio (1 - c) (1 + c) = 1 + c := by
          rw [clip, min_eq_right (by linarith : 1 + c ≤ ratio)]
          exact max_eq_right (by linarith)
        rw [hclip]
  · intro ha hr
    rw [surrogateCode, if_pos ha]
    exact min_eq_right (by nlinarith)
  · intro ha hr
    rw [surrogateCode, if_neg (by linarith)]
    exact min_eq_right (by nlinarith)

/-- C4, witness: the equivalence at `clip_ratio = 1/5`, `adv = 2`,
`ratio = 1 + 1/5 + 1/10`. -/
theorem clipped_surrogate_equiv_witness :
    surrogateCode (1/5) 2 (13/10) = surrogateSpec (1/5) 2 (13/10) ∧
    ((0 : ℚ) < 2 → (13/10 : ℚ) = 1 + 1/5 + 1/10 →
      surrogateCode (1/5) 2 (13/10) = (1 + 1/5) * 2) ∧
    ((2 : ℚ) < 0 → (13/10 : ℚ) < 1 - 1/5 →
      surrogateCode (1/5) 2 (13/10) = (1 - 1/5) * 2) :=
  clipped_surrogate_equiv (1/5) 2 (13/10) (by norm_num) (by norm_num)

/-! ### Claim C5: the update-phase loops -/

/-- The policy-update loop of `PPO.train` (ppo.py lines 229-233): the loop
body runs one gradient step and obtains the resulting `approx_kl` value
(injected here as the sequence `kls`, indexed by iteration); the loop
breaks immediately after an iteration whose `kl` exceeds
`1.5 * target_kl`.  `piLoopFrom kls targetKl rem i` counts the iterations
executed out of the `rem` remaining ones, starting at index `i`. -/
def piLoopFrom (kls : ℕ → ℚ) (targetKl : ℚ) : ℕ → ℕ → ℕ
  | 0, _ => 0
  | rem + 1, i =>
    1 + (if kls i > 3/2 * targetKl then 0 else piLoopFrom kls targetKl rem (i + 1))

/-- The number of policy gradient iterations executed by `PPO.train` out
of `train_pi_iters`. -/
def piItersRun (kls : ℕ → ℚ) (targetKl : ℚ) (trainPiIters : ℕ) : ℕ :=
  piLoopFrom kls targetKl trainPiIters 0

/-- The value-update loop of `PPO.train` (ppo.py lines 234-235): a plain
`for` over `range(train_v_iters)` with no break; counts the
`sess.run(self.train_v)` calls executed. -/
def vItersRun : ℕ → ℕ
  | 0 => 0
  | k + 1 => vItersRun k + 1

theorem piLoopFrom_le (kls : ℕ → ℚ) (targetKl : ℚ) :
    ∀ (rem i : ℕ), piLoopFrom kls targetKl rem i ≤ rem := by
  intro rem
  induction rem with
  | zero => intro i; exact le_refl 0
  | succ rem ih =>
    intro i
    rw [piLoopFrom]
    by_cases h : kls i > 3/2 * targetKl
    · rw [if_pos h]; omega
    · rw [if_neg h]
      have := ih (i + 1)
      omega

theorem piLoopFrom_first_exceed (kls : ℕ → ℚ) (targetKl : ℚ) :
    ∀ (k rem i : ℕ), k < rem →
      (∀ j, j < k → ¬ kls (i + j) > 3/2 * targetKl) →
      kls (i + k) > 3/2 * targetKl →
      piLoopFrom kls targetKl rem i = k + 1 := by
  intro k
  induction k with
  | zero =>
    intro rem i hk hbefore hexc
    obtain ⟨rem', rfl⟩ := Nat.exists_eq_succ_of_ne_zero (by omega : rem ≠ 0)
    rw [piLoopFrom, if_pos (by simpa using hexc)]
  | succ k ih =>
    intro rem i hk hbefore hexc
    obtain ⟨rem', rfl⟩ := Nat.exists_eq_succ_of_ne_zero (by omega : rem ≠ 0)
    have h0 : ¬ kls i > 3/2 * targetKl := by simpa using hbefore 0 (Nat.succ_pos k)
    rw [piLoopFrom, if_neg h0]
    have hrec : piLoopFrom kls targetKl rem' (i + 1) = k + 1 := by
      refine ih rem' (i + 1) (by omega) ?_ ?_
      · intro j hj
        have := hbefore (j + 1) (by omega)
        simpa [Nat.add_assoc, Nat.add_comm 1 j] using this
      · have : i + (k + 1) = i + 1 + k := by omega
        rw [← this]
        exact hexc
    omega

/-- C5: the policy-update loop runs at most `train_pi_iters` iterations
and stops immediately after the first iteration whose `approx_kl` exceeds
`1.5 * target_kl` (iterations `0..i` executed, the rest skipped), while
the value-update loop always runs exactly `train_v_iters` iterations. -/
theorem train_loop_iterations (kls : ℕ → ℚ) (targetKl : ℚ) (nPi nV i : ℕ)
    (hlt : i < nPi) (hexc : kls i > 3/2 * targetKl)
    (hbefore : ∀ j, j < i → ¬ kls j > 3/2 * targetKl) :
    piItersRun kls targetKl nPi = i + 1 ∧
    (∀ (kls' : ℕ → ℚ) (tK' : ℚ) (n' : ℕ), piItersRun kls' tK' n' ≤ n') ∧
    vItersRun nV = nV := by
  refine ⟨?_, fun kls' tK' n' => piLoopFrom_le kls' tK' n' 0, ?_⟩
  · rw [piItersRun]
    refine piLoopFrom_first_exceed kls targetKl i nPi 0 hlt ?_ ?_
    · intro j hj
      simpa using hbefore j hj
    · simpa using hexc
  · induction nV with
    | zero => rfl
    | succ nV ihv => rw [vItersRun, ihv]

/-- C5, witness: with injected KL values `0, 1, 0, ...` and
`target_kl = 1/2`, the policy loop of 5 iterations stops after
iteration 1 and the value loop of 4 iterations runs all 4. -/
theorem train_loop_iterations_witness :
    piItersRun (fun j => if j = 1 then 1 else 0) (1/2) 5 = 1 + 1 ∧
    (∀ (kls' : ℕ → ℚ) (tK' : ℚ) (n' : ℕ), piItersRun kls' tK' n' ≤ n') ∧
    vItersRun 4 = 4 :=
  train_loop_iterations (fun j => if j = 1 then 1 else 0) (1/2) 5 4 1
    (by norm_num)
    (by norm_num)
    (by
      intro j hj
      interval_cases j
      norm_num)

/-! ### Claim C6: the diagonal-Gaussian log-likelihood -/

/-- The diagonal-Gaussian log-likelihood exactly as `gaussian_likelihood`
computes it (ppo.py lines 60-62): the per-dimension pre-sum is
`-0.5 * (((x - mu) / (exp(log_std) + 1e-8))**2 + 2 * log_std +
log(2 * pi))`, reduced by summation over the action dimensions. -/
noncomputable def gaussian_likelihood (n : ℕ) (x mu log_std : Fin n → ℝ) : ℝ :=
  ∑ i, -(1/2) * (((x i - mu i) / (Real.exp (log_std i) + 1e-8))^2
    + 2 * log_std i + Real.log (2 * Real.pi))

/-- The spec's formula for the same quantity:
`sum_i [-0.5*((a_i-mean_i)/(exp(log_std_i)+eps))^2 - log_std_i
- 0.5*log(2*pi)]` with `eps = 1e-8`. -/
noncomputable def gaussianLogpSpec (n : ℕ) (a mean log_std : Fin n → ℝ) : ℝ :=
  ∑ i, (-(1/2) * ((a i - mean i) / (Real.exp (log_std i) + 1e-8))^2
    - log_std i - (1/2) * Real.log (2 * Real.pi))

/-- C6: the code's Gaussian log-likelihood equals the spec's summed
formula for every action, mean and log-std vector, and at `log_std = 0`
for a 1-dimensional action it reduces to the standard-normal log-density
with the `eps` perturbation in the denominator. -/
theorem gaussian_likelihood_spec (n : ℕ) (x mu log_std : Fin n → ℝ) :
    gaussian_likelihood n x mu log_std = gaussianLogpSpec n x mu log_std ∧
    ∀ (a mean : ℝ),
      gaussian_likelihood 1 (fun _ => a) (fun _ => mean) (fun _ => 0) =
        -(1/2) * ((a - mean) / (1 + 1e-8))^2 - (1/2) * Real.log (2 * Real.pi) := by
  constructor
  · rw [gaussian_likelihood, gaussianLogpSpec]
    exact Finset.sum_congr rfl fun i _ => by ring
  · intro a mean
    rw [gaussian_likelihood, Fin.sum_univ_one, Real.exp_zero]
    ring

/-! ### Claim C7: buffer error contract and cursor round-trip -/

theorem storeAll_ok (ts : List (S × A × ℚ × ℚ × ℚ)) :
    ∀ (b : BufState S A), b.ptr + ts.length ≤ b.capacity →
      ∃ b', b.storeAll ts = .ok b' ∧ b'.ptr = b.ptr + ts.length ∧
        b'.capacity = b.capacity := by
  induction ts with
  | nil =>
    intro b h
    exact ⟨b, rfl, by simp, rfl⟩
  | cons t ts ih =>
    intro b h
    simp only [List.length_cons] at h
    have hne : ¬ b.ptr = b.capacity := by omega
    obtain ⟨b', h1, h2, h3⟩ := ih
      { b with
        states := b.states ++ [t.1]
        actions := b.actions ++ [t.2.1]
        rewards := b.rewards ++ [t.2.2.1]
        values := b.values ++ [t.2.2.2.1]
        logps := b.logps ++ [t.2.2.2.2]
        ptr := b.ptr + 1 }
      (show b.ptr + 1 + ts.length ≤ b.capacity by omega)
    have h2' : b'.ptr = b.ptr + 1 + ts.length := h2
    have h3' : b'.capacity = b.capacity := h3
    refine ⟨b', ?_, by simp only [List.length_cons]; omega, h3'⟩
    rw [BufState.storeAll]
    simp only [BufState.store, if_neg hne]
    exact h1

/-- C7: `store` fails with `BufferFull` exactly when invoked at
`ptr = capacity`, `get` fails with `BufferNotFull` exactly when invoked at
`ptr ≠ capacity`, and after a successful `get` both cursors are reset to 0
so that a fresh `capacity`-length rollout can be stored without error. -/
theorem buffer_error_contract (b : BufState S A) (s : S) (a : A) (r v lp : ℚ) :
    (b.store s a r v lp = .error .bufferFull ↔ b.ptr = b.capacity) ∧
    (b.get = .error .bufferNotFull ↔ b.ptr ≠ b.capacity) ∧
    (∀ out b', b.get = .ok (out, b') →
      b'.ptr = 0 ∧ b'.pathStart = 0 ∧
      ∀ ts : List (S × A × ℚ × ℚ × ℚ), ts.length = b'.capacity →
        ∃ b'', b'.storeAll ts = .ok b'') := by
  refine ⟨?_, ?_, ?_⟩
  · constructor
    · intro h
      by_contra hne
      rw [BufState.store, if_neg hne] at h
      exact Except.noConfusion h
    · intro h
      rw [BufState.store, if_pos h]
  · constructor
    · intro h
      by_contra hne
      rw [BufState.get, if_neg (not_not_intro hne)] at h
      exact Except.noConfusion h
    · intro h
      rw [BufState.get, if_pos h]
  · intro out b' h
    rcases eq_or_ne b.ptr b.capacity with heq | hne
    · rw [BufState.get, if_neg (not_not_intro heq), Except.ok.injEq, Prod.ext_iff] at h
      obtain ⟨-, h5⟩ := h
      dsimp at h5
      subst h5
      refine ⟨rfl, rfl, ?_⟩
      intro ts hts
      have hts' : ts.length = b.capacity := hts
      obtain ⟨b'', h1, -, -⟩ := storeAll_ok ts
        { b with ptr := 0, pathStart := 0 }
        (show 0 + ts.length ≤ b.capacity by omega)
      exact ⟨b'', h1⟩
    · rw [BufState.get, if_pos hne] at h
      exact Except.noConfusion h

/-- A concrete full buffer of capacity 2 over trivial states/actions. -/
def bufFull : BufState ℕ ℕ :=
  ⟨2, [0, 1], [0, 0], [1, 2], [0, 0], [0, 0], [1, 2], [1, 2], 2, 2⟩

/-- C7, witness: the contract at a concrete full buffer. -/
theorem buffer_error_contract_witness :
    (bufFull.store 9 9 9 9 9 = .error .bufferFull ↔ bufFull.ptr = bufFull.capacity) ∧
    (bufFull.get = .error .bufferNotFull ↔ bufFull.ptr ≠ bufFull.capacity) ∧
    (∀ out b', bufFull.get = .ok (out, b') →
      b'.ptr = 0 ∧ b'.pathStart = 0 ∧
      ∀ ts : List (ℕ × ℕ × ℚ × ℚ × ℚ), ts.length = b'.capacity →
        ∃ b'', b'.storeAll ts = .ok b'') :=
  buffer_error_contract bufFull 9 9 9 9 9

/-! ### Claims C8 and C10: the evaluator -/

/-- The evaluation loop of `PPO.evaluate` (ppo.py lines 237-253), embedded
with explicit fuel: each pass samples an action with the current policy,
steps the environment, accumulates the reward, advances the state, and
exits only when `done` is reported.  The buffer and the agent are threaded
through untouched, mirroring that the loop body contains no `buf.store`
call and no gradient-update operation.  Returns `none` when `done` was not
reported within `fuel` steps (the source loop would still be running). -/
def evaluateAux (env : Env S A) (ag : Agent S A) (buf : BufState S A) :
    ℕ → S → ℚ → Option ℚ × BufState S A × Agent S A
  | 0, _, _ => (none, buf, ag)
  | fuel + 1, s, acc =>
    let p := env.step s (ag.pi s)
    if p.2.2 = true then (some (acc + p.2.1), buf, ag)
    else evaluateAux env ag buf fuel p.1 (acc + p.2.1)

/-- Entry point of `PPO.evaluate`: reward accumulator starts at 0 at the
reset state. -/
def evaluate (env : Env S A) (ag : Agent S A) (buf : BufState S A) (fuel : ℕ) :
    Option ℚ × BufState S A × Agent S A :=
  evaluateAux env ag buf fuel env.reset 0

/-- The state visited at step `k` of an evaluation episode. -/
def evalState (env : Env S A) (ag : Agent S A) : ℕ → S
  | 0 => env.reset
  | k + 1 => (env.step (evalState env ag k) (ag.pi (evalState env ag k))).1

/-- The `env.step` result at step `k` of an evaluation episode. -/
def evalStep (env : Env S A) (ag : Agent S A) (k : ℕ) : S × ℚ × Bool :=
  env.step (evalState env ag k) (ag.pi (evalState env ag k))

theorem evaluateAux_snd (env : Env S A) (ag : Agent S A) (buf : BufState S A) :
    ∀ (fuel : ℕ) (s : S) (acc : ℚ),
      (evaluateAux env ag buf fuel s acc).2 = (buf, ag) := by
  intro fuel
  induction fuel with
  | zero => intro s acc; rfl
  | succ fuel ih =>
    intro s acc
    rw [evaluateAux]
    by_cases hd : (env.step s (ag.pi s)).2.2 = true
    · simp only [hd, if_true]
    · simp only [hd, if_false]
      exact ih _ _

theorem evaluateAux_reward (env : Env S A) (ag : Agent S A) (buf : BufState S A) :
    ∀ (fuel j k : ℕ), j ≤ k → k - j < fuel →
      (∀ i, i < k → (evalStep env ag i).2.2 = false) →
      (evalStep env ag k).2.2 = true →
      (evaluateAux env ag buf fuel (evalState env ag j)
          (∑ i in Finset.range j, (evalStep env ag i).2.1)).1 =
        some (∑ i in Finset.range (k + 1), (evalStep env ag i).2.1) := by
  intro fuel
  induction fuel with
  | zero => intro j k hjk hfuel hnd hdone; omega
  | succ fuel ih =>
    intro j k hjk hfuel hnd hdone
    rw [evaluateAux]
    rcases eq_or_lt_of_le hjk with rfl | hlt
    · have hd : (env.step (evalState env ag j) (ag.pi (evalState env ag j))).2.2 = true :=
        hdone
      simp only [hd, if_true]
      have hr : (env.step (evalState env ag j) (ag.pi (evalState env ag j))).2.1 =
          (evalStep env ag j).2.1 := rfl
      rw [hr, ← Finset.sum_range_succ]
    · have hd : (env.step (evalState env ag j) (ag.pi (evalState env ag j))).2.2 = false :=
        hnd j hlt
      simp only [hd, Bool.false_eq_true, if_false]
      have hstate : (env.step (evalState env ag j) (ag.pi (evalState env ag j))).1 =
          evalState env ag (j + 1) := rfl
      have hacc : (∑ i in Finset.range j, (evalStep env ag i).2.1) +
          (env.step (evalState env ag j) (ag.pi (evalState env ag j))).2.1 =
          ∑ i in Finset.range (j + 1), (evalStep env ag i).2.1 :=
        (Finset.sum_range_succ _ j).symm
      rw [hstate, hacc]
      exact ih (j + 1) k hlt (by omega) hnd hdone

/-- C8: `evaluate` runs one episode with the current policy and returns
the cumulative reward of its steps up to and including the first `done`,
and its result carries the buffer and the agent parameters unchanged: the
loop neither stores transitions nor performs any gradient update. -/
theorem evaluate_frame (env : Env S A) (ag : Agent S A) (buf : BufState S A)
    (fuel k : ℕ) (hk : k < fuel)
    (hdone : (evalStep env ag k).2.2 = true)
    (hnd : ∀ i, i < k → (evalStep env ag i).2.2 = false) :
    evaluate env ag buf fuel =
      (some (∑ i in Finset.range (k + 1), (evalStep env ag i).2.1), buf, ag) := by
  have h1 := evaluateAux_reward env ag buf fuel 0 k (Nat.zero_le k) (by omega) hnd hdone
  have h2 := evaluateAux_snd env ag buf fuel (evalState env ag 0) 0
  rw [evaluate]
  have hreset : (env.reset : S) = evalState env ag 0 := rfl
  rw [hreset]
  have hzero : (0 : ℚ) = ∑ i in Finset.range 0, (evalStep env ag i).2.1 := by simp
  rw [hzero] at h2 ⊢
  exact Prod.ext h1 h2

/-- C8, witness: a one-step episode in the always-terminating test
environment leaves a concrete buffer and the agent untouched and returns
the step's reward. -/
theorem evaluate_frame_witness :
    evaluate envAlwaysDone agConst bufFull 3 =
      (some (∑ i in Finset.range (0 + 1),
        (evalStep envAlwaysDone agConst i).2.1), bufFull, agConst) :=
  evaluate_frame envAlwaysDone agConst bufFull 3 0 (by omega) rfl
    (fun i hi => absurd hi (Nat.not_lt_zero i))

theorem evaluateAux_isSome_done (env : Env S A) (ag : Agent S A)
    (buf : BufState S A) :
    ∀ (fuel j : ℕ) (acc : ℚ),
      ((evaluateAux env ag buf fuel (evalState env ag j) acc).1).isSome →
      ∃ k, (evalStep env ag k).2.2 = true := by
  intro fuel
  induction fuel with
  | zero => intro j acc h; simp [evaluateAux] at h
  | succ fuel ih =>
    intro j acc h
    rw [evaluateAux] at h
    by_cases hd : (env.step (evalState env ag j) (ag.pi (evalState env ag j))).2.2 = true
    · exact ⟨j, hd⟩
    · simp only [hd, if_false] at h
      exact ih (j + 1) _ h

/-- C10: the evaluation loop imposes no episode-length cap: it exits only
on `done`, so some amount of fuel makes `evaluate` return a reward if and
only if the environment eventually reports `done` along the evaluation
trajectory (unlike the rollout phase, whose episodes are cut at
`max_ep_len`). -/
theorem evaluate_terminates_iff (env : Env S A) (ag : Agent S A)
    (buf : BufState S A) :
    (∃ fuel, ((evaluate env ag buf fuel).1).isSome) ↔
      ∃ k, (evalStep env ag k).2.2 = true := by
  constructor
  · rintro ⟨fuel, h⟩
    exact evaluateAux_isSome_done env ag buf fuel 0 0 h
  · rintro ⟨k, hk⟩
    have hex : ∃ k, (evalStep env ag k).2.2 = true := ⟨k, hk⟩
    refine ⟨Nat.find hex + 1, ?_⟩
    have hdone : (evalStep env ag (Nat.find hex)).2.2 = true := Nat.find_spec hex
    have hnd : ∀ i, i < Nat.find hex → (evalStep env ag i).2.2 = false := by
      intro i hi
      have := Nat.find_min hex hi
      exact Bool.not_eq_true _ ▸ eq_false_of_ne_true this
    have h1 := evaluateAux_reward env ag buf (Nat.find hex + 1) 0 (Nat.find hex)
      (Nat.zero_le _) (by omega) hnd hdone
    rw [evaluate]
    have hreset : (env.reset : S) = evalState env ag 0 := rfl
    have hzero : (0 : ℚ) = ∑ i in Finset.range 0, (evalStep env ag i).2.1 := by simp
    rw [hreset, hzero, h1]
    rfl

end PPOSpec
